import Mathlib

/-
Verification of the quantify metrics library (Go) against its specification.

The definitions below are a shallow embedding of the library's latest
revision:
  - counter.go : `count`, `Counter`, `newCounter`, `Counter.Count`,
    `Counter.getKey`, `Counter.takePoints(current bool)` (the revision that
    sorts its output and takes the `current` flag),
  - client.go  : `Quantifier.report(current bool)`, the run-loop events,
    `Quantifier.Stop`/`terminate`, `countToMetricPointProto`,
  - validate.go: `isMetricTypeValid`, `isMetricLabelKeyValid`.

Machine integers (int64) are modelled as `Int`; the counter only ever adds 1
to a tally, reads clocks, and adds interval lengths, so no operation in the
embedded fragment is specified to wrap. Go's `sync.Map` is modelled as an
association list whose order is unspecified (mirroring the unspecified
iteration order of `Range`); sequential semantics stand in for the
atomics-protected concurrent code.
-/

namespace Quantify

/-! ## Go time model -/

/-- Seconds from Go's zero time (January 1, year 1 UTC) to the Unix epoch;
the constant `unixToInternal` of Go's time package. `time.Time.Truncate`
rounds an instant down to a multiple of the duration measured from the zero
time, so this offset enters the bucket-key computation of `Counter.getKey`. -/
def unixToInternal : Int := 62135596800

/-- In Go, a `time.Time` instant. Go stores seconds since the year-1 zero
time plus a nanosecond field in `[0, 10^9)`; we store Unix seconds (Go's
`sec - unixToInternal`) together with the same nanosecond field. The
monotonic-clock reading plays no role in the embedded code (it is stripped
by `Truncate` and never compared). -/
structure GoTime where
  sec : Int
  nsec : Int
deriving Repr, DecidableEq

/-- Total nanoseconds of an instant since the Unix epoch. -/
def GoTime.toNanos (t : GoTime) : Int := t.sec * 1000000000 + t.nsec

/-- In Go, `time.Time.Add` with a duration of `d` nanoseconds: the result is
the instant `t + d`, stored with the nanosecond field normalised into
`[0, 10^9)`, which is exactly the floor-division decomposition of the total
nanosecond count. -/
def GoTime.addNs (t : GoTime) (d : Int) : GoTime :=
  { sec := (t.toNanos + d).fdiv 1000000000,
    nsec := (t.toNanos + d).fmod 1000000000 }

/-- Remainder (in nanoseconds) of the instant `t` past the last multiple of
`interval` seconds counted from Go's zero time. This is the value `r`
computed by the internal `div` function that `time.Time.Truncate` uses for a
whole-second duration: Go reduces the second count modulo the duration and
adjusts a negative remainder up by one duration, which is precisely `fmod`
with a positive divisor. -/
def GoTime.truncRem (t : GoTime) (interval : Int) : Int :=
  ((t.sec + unixToInternal).fmod interval) * 1000000000 + t.nsec

/-- In Go, `time.Time.Truncate` for a duration of `interval` seconds: round
the instant down to a multiple of the duration since the zero time, by
subtracting the remainder `truncRem`. -/
def GoTime.truncate (t : GoTime) (interval : Int) : GoTime :=
  t.addNs (-(t.truncRem interval))

/-- In Go, `time.Time.Unix`: seconds since the Unix epoch (in our
representation the stored seconds field). -/
def GoTime.unix (t : GoTime) : Int := t.sec

/-! ## Interval counter (counter.go, revision with the `current` flag) -/

/-- Record `count` of counter.go: a tally over a duration of time, with the
inclusive start instant, the exclusive end instant and the total recorded
within that duration. -/
structure CountRec where
  start : GoTime
  endTime : GoTime
  count : Int
deriving Repr, DecidableEq

/-- State of a `Counter`: the configured interval (seconds, int64) and the
bucket mapping. The `sync.Map` field `counts` is modelled as an association
list from bucket key to running total; its order is unspecified, standing
for the unspecified iteration order of `sync.Map.Range`. -/
structure Counter where
  interval : Int
  counts : List (Int × Int)
deriving Repr, DecidableEq

/-- Function `newCounter` of counter.go: fails when the interval is not
positive, otherwise returns a counter with an empty bucket mapping. -/
def newCounter (interval : Int) : Except String Counter :=
  if interval ≤ 0 then .error "interval must be greater than 0"
  else .ok { interval := interval, counts := [] }

/-- Body of `Counter.getKey` as a function of the interval: the clock's
current instant truncated down to a multiple of the interval (Go `Truncate`,
hence measured from the zero time), reported as Unix seconds. -/
def bucketKey (interval : Int) (now : GoTime) : Int :=
  (now.truncate interval).unix

/-- Method `Counter.getKey`. -/
def Counter.getKey (c : Counter) (now : GoTime) : Int :=
  bucketKey c.interval now

/-- Effect on the bucket list of `counts.LoadOrStore(key, &zero)` followed by
`atomic.AddInt64(count, 1)`: increment the entry for `key`, creating it (at
zero, then incremented to one) when absent. -/
def bumpKey : List (Int × Int) → Int → List (Int × Int)
  | [], k => [(k, 1)]
  | (k', v) :: rest, k =>
    if k' = k then (k', v + 1) :: rest else (k', v) :: bumpKey rest k

/-- Method `Counter.Count`: add 1 to the running total of the bucket keyed by
the current time period. -/
def Counter.count (c : Counter) (now : GoTime) : Counter :=
  { c with counts := bumpKey c.counts (c.getKey now) }

/-- Entries collected (and deleted) by the `Range` body of `takePoints`: an
entry is skipped exactly when the `current` flag is unset and its key is not
below the current frame. -/
def takenEntries (current : Bool) (currentFrame : Int)
    (counts : List (Int × Int)) : List (Int × Int) :=
  counts.filter (fun kv => current || decide (kv.1 < currentFrame))

/-- Entries surviving the `Range` body of `takePoints` (the complement of
`takenEntries`). -/
def keptEntries (current : Bool) (currentFrame : Int)
    (counts : List (Int × Int)) : List (Int × Int) :=
  counts.filter (fun kv => !(current || decide (kv.1 < currentFrame)))

/-- Ordering used by the final `sort.Slice(response, response[i].start.Before
(response[j].start))` of `takePoints`: non-strict comparison of start
instants (second, then nanosecond). On the records `takePoints` builds, start
instants are whole seconds and pairwise distinct, so any sort by `Before`
produces the one strictly ascending arrangement; `List.insertionSort` by this
relation models it. -/
def countLe (a b : CountRec) : Prop :=
  a.start.sec < b.start.sec ∨ (a.start.sec = b.start.sec ∧ a.start.nsec ≤ b.start.nsec)

instance : DecidableRel countLe := fun a b => by
  unfold countLe; infer_instance

instance : IsTotal CountRec countLe where
  total a b := by unfold countLe; omega

instance : IsTrans CountRec countLe where
  trans a b c hab hbc := by unfold countLe at *; omega

/-- Conversion of one removed bucket entry into a `count` record inside
`takePoints`: `start = time.Unix(k, 0)`, `end = time.Unix(k+interval, 0)`. -/
def Counter.toCountRec (c : Counter) (kv : Int × Int) : CountRec :=
  { start := ⟨kv.1, 0⟩, endTime := ⟨kv.1 + c.interval, 0⟩, count := kv.2 }

/-- Method `Counter.takePoints(current)`: determine the current frame from
the clock, remove from the bucket mapping every entry whose key is below the
current frame (every entry, when `current` is set), convert the removed
entries to `count` records, and return them sorted by ascending start time
together with the counter state after the deletions. -/
def Counter.takePoints (c : Counter) (now : GoTime) (current : Bool) :
    List CountRec × Counter :=
  (List.insertionSort countLe
      ((takenEntries current (c.getKey now) c.counts).map c.toCountRec),
   { c with counts := keptEntries current (c.getKey now) c.counts })

/-! ## Proto conversion and report batching (client.go, latest revision) -/

/-- Field values of a `timestamppb.Timestamp` proto: whole seconds since the
Unix epoch and a nanosecond part. -/
structure Timestamp where
  seconds : Int
  nanos : Int
deriving Repr, DecidableEq

/-- Function `timestamppb.New`: a Go instant carried over field-by-field. -/
def timestamppbNew (t : GoTime) : Timestamp := ⟨t.sec, t.nsec⟩

/-- Data carried by the `monitoringpb.Point` proto built by the client: the
interval's start and end timestamps and the int64 value. -/
structure MetricPoint where
  startTime : Timestamp
  endTime : Timestamp
  value : Int
deriving Repr, DecidableEq

/-- Function `countToMetricPointProto` of client.go: the point's interval
starts at the window's start and ends at `end.Add(-1 millisecond)` (one
millisecond, i.e. 10^6 nanoseconds, before the nominal end), and its value is
the window's total. -/
def countToMetricPointProto (c : CountRec) : MetricPoint :=
  { startTime := timestamppbNew c.start,
    endTime := timestamppbNew (c.endTime.addNs (-1000000)),
    value := c.count }

/-- Helper for the batch matrix of `Quantifier.report`: append `x` to the
`i`-th inner list (`series[i] = append(series[i], x)`); out-of-range indices
leave the list unchanged (the code's length guard keeps the index in range).
-/
def appendAt : List (List α) → Nat → α → List (List α)
  | [], _, _ => []
  | s :: rest, 0, x => (s ++ [x]) :: rest
  | s :: rest, i + 1, x => s :: appendAt rest i x

/-- Inner loop of `Quantifier.report` for one metric binding `b`: for each
drained point, grow `series` by one empty batch when `len(series) <=
pointCount`, append the point (tagged with its binding) to batch
`pointCount`, and advance `pointCount`. -/
def placePoints (b : Nat) : List MetricPoint → Nat → List (List (Nat × MetricPoint)) →
    List (List (Nat × MetricPoint))
  | [], _, series => series
  | pt :: rest, pointCount, series =>
    let series' := if series.length ≤ pointCount then series ++ [[]] else series
    placePoints b rest (pointCount + 1) (appendAt series' pointCount (b, pt))

/-- Outer loop of `Quantifier.report`: place each binding's drained points in
turn, binding `b` first, so at most one point of any binding lands in a given
batch. The binding index tags each placed point in place of the per-binding
`TimeSeries` proto that `createTimeSeriesProto` would build around it. -/
def reportBatchesAux : Nat → List (List MetricPoint) → List (List (Nat × MetricPoint)) →
    List (List (Nat × MetricPoint))
  | _, [], series => series
  | b, pts :: rest, series => reportBatchesAux (b + 1) rest (placePoints b pts 0 series)

/-- Batch matrix built by `Quantifier.report` from the per-binding lists of
drained points, starting from an empty `series`. -/
def reportBatches (bindings : List (List MetricPoint)) : List (List (Nat × MetricPoint)) :=
  reportBatchesAux 0 bindings []

/-- One metric binding of the client (`metricCounter`): the metric identity
(type path and label set) together with its owned counter. -/
structure MetricBinding where
  metricType : String
  labels : List (String × String)
  counter : Counter
deriving Repr, DecidableEq

/-- Registered-state of a `Quantifier` relevant to reporting: the ordered
collection of metric bindings. -/
structure Quantifier where
  counters : List MetricBinding
deriving Repr, DecidableEq

/-- Per-binding drained points of `Quantifier.report(current)`: each
binding's counter drained by `takePoints(current)` and converted by
`countToMetricPointProto`. -/
def Quantifier.drainAll (q : Quantifier) (now : GoTime) (current : Bool) :
    List (List MetricPoint) :=
  q.counters.map (fun mc => ((mc.counter.takePoints now current).1).map countToMetricPointProto)

/-- Method `Quantifier.report(current)`: drain every binding's counter and
group the points into submission batches; returns the batches and the client
with the drained counters. The Go loop interleaves draining binding `b` with
placing its points, but each placement depends only on that binding's own
points and the series built so far, so draining first (`drainAll`) and then
batching (`reportBatches`) computes the same matrix. -/
def Quantifier.report (q : Quantifier) (now : GoTime) (current : Bool) :
    List (List (Nat × MetricPoint)) × Quantifier :=
  (reportBatches (q.drainAll now current),
   { counters :=
      q.counters.map (fun mc => { mc with counter := (mc.counter.takePoints now current).2 }) })

/-- Batch `i` of a series matrix, the empty batch when `i` is out of range;
spec-side accessor used to state properties of the batching. -/
def slot (series : List (List (Nat × MetricPoint))) (i : Nat) : List (Nat × MetricPoint) :=
  (series[i]?).getD []

/-- Specification of batch `j` for bindings numbered from `b`: each binding
contributes its `j`-th drained point (when it has one), in binding order. -/
def batchSpec (b : Nat) : List (List MetricPoint) → Nat → List (Nat × MetricPoint)
  | [], _ => []
  | pts :: rest, j =>
    ((pts[j]?).map (fun pt => (b, pt))).toList ++ batchSpec (b + 1) rest j

/-! ## Run-loop events (client.go `run`, `runTicker`, `Stop`, `terminate`) -/

/-- Events that reach a client's run-loop from outside: a ticker fire, a
context cancellation, and a call of the public `Stop` method. -/
inductive SchedEvent
  | tick
  | ctxCancel
  | stopCall
deriving Repr, DecidableEq

/-- One event processed sequentially, from the code of `runTicker`, `Stop`
and `terminate`: the boolean state is `running`; the returned list records
the `current` flag of each `Quantifier.report` call the event causes.
  - a ticker fire while the loop runs calls `fn = report(false)`; once the
    loop has exited no ticker case can fire;
  - a context cancellation makes the loop call `stop()` and exit without any
    report;
  - `Stop` calls `terminate` — which signals the loop (it exits, setting
    `running` to false) when running and returns at once otherwise — and then
    unconditionally calls `report(true)`, whether or not the client was still
    running. -/
def schedStep : Bool → SchedEvent → Bool × List Bool
  | true, .tick => (true, [false])
  | false, .tick => (false, [])
  | true, .ctxCancel => (false, [])
  | false, .ctxCancel => (false, [])
  | true, .stopCall => (false, [true])
  | false, .stopCall => (false, [true])

/-- Sequential run of the loop over a list of events, accumulating every
report call's `current` flag in order. -/
def schedRun : Bool → List SchedEvent → Bool × List Bool
  | running, [] => (running, [])
  | running, e :: es =>
    let s := schedStep running e
    let r := schedRun s.1 es
    (r.1, s.2 ++ r.2)

/-! ## Metric name and label-key validation (validate.go) -/

/-- Character class `[a-z]`. -/
def isLowerAZ (c : Char) : Bool := 'a' ≤ c && c ≤ 'z'

/-- Character class `[0-9]`. -/
def isDigit09 (c : Char) : Bool := '0' ≤ c && c ≤ '9'

/-- Character class `[a-zA-Z0-9]`. -/
def isAlnumAZ (c : Char) : Bool :=
  ('a' ≤ c && c ≤ 'z') || ('A' ≤ c && c ≤ 'Z') || ('0' ≤ c && c ≤ '9')

/-- Language of the anchored tail `((\/[a-zA-Z0-9])?[a-zA-Z0-9\._]*)*` of
`reMetricType`: each iteration of the star consumes either a slash that must
be followed at once by an alphanumeric, or a plain character from
`[a-zA-Z0-9._]`; equivalently, every character is drawn from alphanumerics,
'.', '_' and '/', and every '/' is immediately followed by an alphanumeric.
Go's regexp engine works on bytes, but every byte the classes accept is
ASCII, so the character-level reading is equivalent. -/
def matchTypeTail : List Char → Bool
  | [] => true
  | '/' :: rest =>
    match rest with
    | [] => false
    | d :: rest' => isAlnumAZ d && matchTypeTail rest'
  | c :: rest => (isAlnumAZ c || c = '.' || c = '_') && matchTypeTail rest

/-- Function `isMetricTypeValid` of validate.go: the name must match
`reMetricType = ^[a-zA-Z0-9]((\/[a-zA-Z0-9])?[a-zA-Z0-9\._]*)*$` (first
character alphanumeric, then `matchTypeTail`) and its length must not exceed
`maxLengthMetricType = 200` (bytes in Go; every matching string is ASCII, so
character count agrees). -/
def isMetricTypeValid (s : String) : Bool :=
  (match s.data with
   | [] => false
   | c :: rest => isAlnumAZ c && matchTypeTail rest)
  && s.data.length ≤ 200

/-- Function `isMetricLabelKeyValid` of validate.go: the key must match
`reMetricLabelKey = ^[a-z][a-z0-9\_]*$` and its length must not exceed
`maxLengthMetricLabelKey = 100` (bytes; matching strings are ASCII). -/
def isMetricLabelKeyValid (s : String) : Bool :=
  (match s.data with
   | [] => false
   | c :: rest => isLowerAZ c && rest.all (fun d => isLowerAZ d || isDigit09 d || d = '_'))
  && s.data.length ≤ 100

/-! ## Counter registration (client.go `CreateCounter`, latest revision) -/

/-- Errors `CreateCounter` can return, by origin: the invalid-name message,
the invalid-label-key message (carrying the offending key), and the
invalid-interval error propagated from `newCounter`. -/
inductive QError
  | invalidName
  | invalidLabelKey (key : String)
  | invalidInterval
deriving Repr, DecidableEq

/-- Constant `customMetricRoot` of client.go. -/
def customMetricRoot : String := "custom.googleapis.com"

/-- Method `Quantifier.CreateCounter(name, labels, interval)`: reject an
invalid metric name, then reject any invalid label key (Go iterates the
label map in unspecified order; the embedded list order picks which
offending key is reported, the error's kind does not depend on it), then let
`newCounter` validate the interval; only when all checks pass is a binding
appended (metric type `path.Join(customMetricRoot, name)`, which for a
regex-valid name is the root, a slash and the name). The returned pair is
the registered collection after the call and the result. -/
def Quantifier.createCounter (q : Quantifier) (name : String)
    (labels : List (String × String)) (interval : Int) :
    Quantifier × Except QError Counter :=
  if !isMetricTypeValid name then (q, .error .invalidName)
  else
    match labels.find? (fun kv => !isMetricLabelKeyValid kv.1) with
    | some kv => (q, .error (.invalidLabelKey kv.1))
    | none =>
      match newCounter interval with
      | .error _ => (q, .error .invalidInterval)
      | .ok counter =>
        ({ counters := q.counters ++
            [{ metricType := customMetricRoot ++ "/" ++ name,
               labels := labels, counter := counter }] },
         .ok counter)

/-! ## Helper lemmas -/

/-- Unfolds the bucket-key computation to a closed form: the key is the Unix
reading of the greatest multiple of the interval, measured from Go's zero
time, not exceeding the clock instant. -/
theorem bucketKey_eq (i : Int) (t : GoTime) :
    bucketKey i t = i * ((t.sec + unixToInternal).fdiv i) - unixToInternal := by
  unfold bucketKey GoTime.truncate GoTime.unix GoTime.addNs GoTime.truncRem GoTime.toNanos
  have harg : t.sec * 1000000000 + t.nsec +
      -(((t.sec + unixToInternal).fmod i) * 1000000000 + t.nsec) =
      (t.sec - (t.sec + unixToInternal).fmod i) * 1000000000 := by ring
  rw [harg, Int.mul_fdiv_cancel _ (by decide), Int.fmod_def]
  ring

/-- Closed form of `Counter.getKey`. -/
theorem Counter.getKey_eq (c : Counter) (t : GoTime) :
    c.getKey t =
      c.interval * ((t.sec + unixToInternal).fdiv c.interval) - unixToInternal :=
  bucketKey_eq c.interval t

/-- Strict ascending order on drained windows (distinct whole-second
starts). -/
def countLt (a b : CountRec) : Prop := a.start.sec < b.start.sec

instance : IsAntisymm CountRec countLt where
  antisymm _ _ hab hba := absurd (lt_trans hab hba) (lt_irrefl _)

/-- Membership in a drain's result is membership in the entries its `Range`
pass removed, converted to records. -/
theorem mem_takePoints {c : Counter} {now : GoTime} {current : Bool} {w : CountRec} :
    w ∈ (c.takePoints now current).1 ↔
      w ∈ (takenEntries current (c.getKey now) c.counts).map c.toCountRec := by
  unfold Counter.takePoints
  exact List.mem_insertionSort countLe

/-- Windows drained from a bucket list with pairwise-distinct keys have
pairwise-distinct (hence strictly ascending, once sorted) start seconds. -/
theorem takePoints_sec_nodup {c : Counter} {now : GoTime} {current : Bool}
    (h : (c.counts.map Prod.fst).Nodup) :
    ((c.takePoints now current).1.map (fun w => w.start.sec)).Nodup := by
  have hperm : ((c.takePoints now current).1.map (fun w => w.start.sec)).Perm
      (((takenEntries current (c.getKey now) c.counts).map c.toCountRec).map
        (fun w => w.start.sec)) :=
    (List.perm_insertionSort countLe _).map _
  have heq : ((takenEntries current (c.getKey now) c.counts).map c.toCountRec).map
      (fun w => w.start.sec) =
      (takenEntries current (c.getKey now) c.counts).map Prod.fst := by
    rw [List.map_map]; rfl
  have hsub : List.Sublist ((takenEntries current (c.getKey now) c.counts).map Prod.fst)
      (c.counts.map Prod.fst) :=
    (List.filter_sublist _).map _
  exact hperm.nodup_iff.mpr (heq ▸ hsub.nodup h)

/-- Sorted by `countLe` plus pairwise-distinct start seconds yields the
strict order. -/
theorem pairwise_countLt_of_sorted {l : List CountRec}
    (hs : List.Pairwise countLe l)
    (hn : (l.map (fun w => w.start.sec)).Nodup) :
    List.Pairwise countLt l := by
  have hne : List.Pairwise (fun a b : CountRec => a.start.sec ≠ b.start.sec) l :=
    List.pairwise_map.mp hn
  exact (hs.and hne).imp (fun {a b} hab => by
    obtain ⟨hle, hne⟩ := hab
    unfold countLe at hle
    unfold countLt
    omega)

/-- Result component of `takePoints`, unfolded. -/
theorem takePoints_fst_def (c : Counter) (now : GoTime) (current : Bool) :
    (c.takePoints now current).1 =
      List.insertionSort countLe
        ((takenEntries current (c.getKey now) c.counts).map c.toCountRec) := rfl

/-! ## Claim C2 -/

/-- Claim C2: for every counter state and clock reading, `takePoints(false)`
returns a window for every bucket whose key is strictly below the current
key, every returned window stems from such a bucket (so the current bucket
is never returned), and the post-drain mapping keeps exactly the buckets
whose key is not below the current key (so the current bucket is never
removed); `takePoints(true)` also returns the bucket whose key equals the
current key whenever that bucket is present. -/
theorem takePoints_drains_exactly_completed (c : Counter) (now : GoTime) :
    (∀ kv ∈ c.counts, kv.1 < c.getKey now →
      ∃ w ∈ (c.takePoints now false).1, w.start.sec = kv.1 ∧ w.count = kv.2) ∧
    (∀ w ∈ (c.takePoints now false).1,
      w.start.sec < c.getKey now ∧ (w.start.sec, w.count) ∈ c.counts) ∧
    ((c.takePoints now false).2.counts =
      c.counts.filter (fun kv => !decide (kv.1 < c.getKey now))) ∧
    (∀ kv ∈ c.counts, kv.1 = c.getKey now →
      ∃ w ∈ (c.takePoints now true).1,
        w.start.sec = c.getKey now ∧ w.count = kv.2) := by
  refine ⟨?_, ?_, ?_, ?_⟩
  · intro kv hmem hlt
    refine ⟨c.toCountRec kv, mem_takePoints.mpr ?_, rfl, rfl⟩
    unfold takenEntries
    exact List.mem_map_of_mem _ (List.mem_filter.mpr ⟨hmem, by simp [hlt]⟩)
  · intro w hw
    obtain ⟨kv, hkv, rfl⟩ := List.mem_map.mp (mem_takePoints.mp hw)
    obtain ⟨hmem, hpred⟩ := List.mem_filter.mp hkv
    simp only [Bool.false_or, decide_eq_true_eq] at hpred
    exact ⟨hpred, by simpa [Counter.toCountRec] using hmem⟩
  · show keptEntries false (c.getKey now) c.counts = _
    unfold keptEntries
    congr 1
  · intro kv hmem hkey
    refine ⟨c.toCountRec kv, mem_takePoints.mpr ?_, hkey ▸ rfl, rfl⟩
    unfold takenEntries
    exact List.mem_map_of_mem _ (List.mem_filter.mpr ⟨hmem, by simp⟩)

/-- Witness for C2 at a concrete state: with interval 10, buckets at keys
1670681770 and 1670681790 and the clock inside the 1670681790 window, the
completed bucket 1670681770 is returned by `takePoints(false)`. -/
theorem takePoints_drains_witness :
    (1670681770, 4) ∈ (Counter.mk 10 [(1670681770, 4), (1670681790, 9)]).counts ∧
    (1670681770 : Int) <
      (Counter.mk 10 [(1670681770, 4), (1670681790, 9)]).getKey ⟨1670681795, 0⟩ ∧
    ∃ w ∈ ((Counter.mk 10 [(1670681770, 4), (1670681790, 9)]).takePoints
        ⟨1670681795, 0⟩ false).1, w.start.sec = 1670681770 ∧ w.count = 4 :=
  ⟨by decide, by decide,
    (takePoints_drains_exactly_completed
        (Counter.mk 10 [(1670681770, 4), (1670681790, 9)]) ⟨1670681795, 0⟩).1
      (1670681770, 4) (by decide) (by decide)⟩

/-! ## Claim C5 -/

/-- Claim C5: for every counter state with pairwise-distinct bucket keys and
either drain mode, the returned windows are strictly ascending in start
time; and the result is independent of the internal storage order — any
permutation of the bucket list (the model of `sync.Map`'s unspecified
iteration order) yields the identical window sequence. -/
theorem takePoints_sorted_ascending (c : Counter) (now : GoTime) (current : Bool)
    (h : (c.counts.map Prod.fst).Nodup) :
    List.Pairwise countLt (c.takePoints now current).1 ∧
    (∀ c₂ : Counter, c₂.interval = c.interval → c₂.counts.Perm c.counts →
      (c₂.takePoints now current).1 = (c.takePoints now current).1) := by
  have hsorted : ∀ c' : Counter, List.Pairwise countLe (c'.takePoints now current).1 := by
    intro c'
    rw [takePoints_fst_def]
    exact List.sorted_insertionSort countLe _
  have hstrict : ∀ c' : Counter, (c'.counts.map Prod.fst).Nodup →
      List.Pairwise countLt (c'.takePoints now current).1 := by
    intro c' h'
    exact pairwise_countLt_of_sorted (hsorted c') (takePoints_sec_nodup h')
  refine ⟨hstrict c h, ?_⟩
  intro c₂ hint hperm
  have h₂ : (c₂.counts.map Prod.fst).Nodup := ((hperm.map Prod.fst).nodup_iff).mpr h
  have hkey : c₂.getKey now = c.getKey now := by
    unfold Counter.getKey
    rw [hint]
  have hrec : c₂.toCountRec = c.toCountRec := by
    funext kv
    unfold Counter.toCountRec
    rw [hint]
  have houtperm : (c₂.takePoints now current).1.Perm (c.takePoints now current).1 := by
    rw [takePoints_fst_def, takePoints_fst_def, hkey, hrec]
    refine ((List.perm_insertionSort countLe _).trans ?_).trans
      (List.perm_insertionSort countLe _).symm
    unfold takenEntries
    exact (hperm.filter _).map _
  exact List.eq_of_perm_of_sorted houtperm (hstrict c₂ h₂) (hstrict c h)

/-- Witness for C5: drains of the same buckets stored in two different
orders produce the identical, strictly ascending window sequence. -/
theorem takePoints_sorted_witness :
    ((Counter.mk 10 [(1670681770, 4), (1670681780, 9)]).counts.map Prod.fst).Nodup ∧
    ((Counter.mk 10 [(1670681780, 9), (1670681770, 4)]).takePoints
        ⟨1670681795, 0⟩ false).1 =
      ((Counter.mk 10 [(1670681770, 4), (1670681780, 9)]).takePoints
        ⟨1670681795, 0⟩ false).1 :=
  ⟨by decide,
    (takePoints_sorted_ascending (Counter.mk 10 [(1670681770, 4), (1670681780, 9)])
        ⟨1670681795, 0⟩ false (by decide)).2
      (Counter.mk 10 [(1670681780, 9), (1670681770, 4)]) rfl (by decide)⟩

/-! ## Claim C3 -/

/-- Claim C3, counterexample: from a running scheduler, the event trace
`[stopCall, stopCall]` produces two `report(true)` calls where the claim
("a subsequent stop() on the now-idle scheduler is a no-op") admits only the
single final flush of the first stop: `Stop` invokes `report(true)`
unconditionally, even when `terminate` finds the client already idle. -/
theorem stop_twice_flushes_twice :
    schedRun true [SchedEvent.stopCall, SchedEvent.stopCall] = (false, [true, true]) ∧
    schedRun true [SchedEvent.stopCall] = (false, [true]) ∧
    ([true, true] : List Bool) ≠ [true] := by decide

/-- Claim C3, amended: stopping a running scheduler after `n` periodic ticks
yields exactly the `n` tick flushes (`report(false)`) plus one final flush,
that final flush being the only `report(true)` call, and the run-loop exits
(`running = false`); a subsequent `stop()` does not signal the run-loop and
leaves it idle, but it is not a complete no-op: `Stop` unconditionally
invokes one further `report(true)` (which submits nothing when the drained
counters are empty). -/
theorem stop_single_final_flush (n : Nat) :
    schedRun true (List.replicate n SchedEvent.tick ++ [SchedEvent.stopCall]) =
      (false, List.replicate n false ++ [true]) ∧
    schedRun true (List.replicate n SchedEvent.tick ++
        [SchedEvent.stopCall, SchedEvent.stopCall]) =
      (false, List.replicate n false ++ [true, true]) := by
  induction n with
  | zero => exact ⟨rfl, rfl⟩
  | succ n ih =>
    obtain ⟨h1, h2⟩ := ih
    constructor
    · simp [List.replicate_succ, schedRun, schedStep, h1]
    · simp [List.replicate_succ, schedRun, schedStep, h2]

/-! ## Claim C4 -/

/-- Claim C4, counterexample: with interval 7 and the clock at the Unix
epoch (T = 0), the code computes bucket key −4 (the Unix reading of the
last multiple of 7 seconds counted from Go's zero time, year 1), while
`floor(T / I) * I = 0`; the claimed identity fails for every interval that
does not divide the 62135596800-second epoch offset. -/
theorem getKey_floor_counterexample :
    (Counter.mk 7 []).getKey ⟨0, 0⟩ = -4 ∧
    (7 : Int) * ((0 : Int).fdiv 7) = 0 ∧
    (-4 : Int) ≠ (7 : Int) * ((0 : Int).fdiv 7) := by decide

/-- Claim C4, amended: for every positive interval `I` and clock instant
`T` (seconds since the Unix epoch), the bucket key is
`I * floor((T + 62135596800) / I) - 62135596800` — the greatest multiple of
`I` counted from Go's zero time (year 1), reported in Unix seconds, because
`time.Time.Truncate` measures from the zero time. Whenever `I` divides the
epoch offset 62135596800 (as do the intervals 1, 10, 60 and 120 exercised by
the repository's tests), this equals the claimed `floor(T / I) * I`. -/
theorem getKey_truncates_from_go_zero_time (c : Counter) (t : GoTime)
    (h : 0 < c.interval) :
    c.getKey t =
      c.interval * ((t.sec + unixToInternal).fdiv c.interval) - unixToInternal ∧
    (unixToInternal.fmod c.interval = 0 →
      c.getKey t = c.interval * (t.sec.fdiv c.interval)) := by
  refine ⟨c.getKey_eq t, fun hdvd => ?_⟩
  rw [c.getKey_eq t]
  rw [Int.fdiv_eq_ediv _ (le_of_lt h), Int.fdiv_eq_ediv _ (le_of_lt h)]
  rw [Int.fmod_eq_emod _ (le_of_lt h)] at hdvd
  have hE : unixToInternal = c.interval * (unixToInternal / c.interval) := by
    have := Int.ediv_add_emod unixToInternal c.interval
    omega
  have h2 : (t.sec + unixToInternal) / c.interval =
      t.sec / c.interval + unixToInternal / c.interval := by
    conv_lhs => rw [hE, mul_comm]
    exact Int.add_mul_ediv_right _ _ (ne_of_gt h)
  rw [h2, mul_add, ← hE]
  ring

/-- Witness for the amended C4 theorem at interval 10 and
T = 1670681776 (the spec's own example): the key is 1670681770. -/
theorem getKey_truncates_witness :
    (0 : Int) < 10 ∧ unixToInternal.fmod 10 = 0 ∧
    (Counter.mk 10 []).getKey ⟨1670681776, 0⟩ = 10 * ((1670681776 : Int).fdiv 10) := by
  refine ⟨by decide, by decide, ?_⟩
  exact (getKey_truncates_from_go_zero_time (Counter.mk 10 []) ⟨1670681776, 0⟩
    (by decide)).2 (by decide)

/-! ## Claim C1 -/

/-- Incrementing a key that is absent from the bucket list appends a fresh
entry with total 1 (`LoadOrStore` creates it at zero, the atomic add takes
it to one). -/
theorem bumpKey_not_mem (m : List (Int × Int)) (k : Int)
    (h : k ∉ m.map Prod.fst) : bumpKey m k = m ++ [(k, 1)] := by
  induction m with
  | nil => rfl
  | cons kv rest ih =>
    have hne : kv.1 ≠ k := by
      intro he
      exact h (by simp [he])
    have htail : k ∉ rest.map Prod.fst := by
      intro hmem
      exact h (by simp [hmem])
    cases kv with
    | mk k' v =>
      simp only [bumpKey, if_neg hne, List.cons_append, List.cons.injEq, true_and]
      exact ih htail

/-- Incrementing a key whose unique entry sits at the tail of the bucket
list bumps that entry's total. -/
theorem bumpKey_append (m : List (Int × Int)) (k : Int) (i : Int)
    (h : k ∉ m.map Prod.fst) :
    bumpKey (m ++ [(k, i)]) k = m ++ [(k, i + 1)] := by
  induction m with
  | nil => simp [bumpKey]
  | cons kv rest ih =>
    have hne : kv.1 ≠ k := by
      intro he
      exact h (by simp [he])
    have htail : k ∉ rest.map Prod.fst := by
      intro hmem
      exact h (by simp [hmem])
    cases kv with
    | mk k' v =>
      simp only [List.cons_append, bumpKey, if_neg hne, List.cons.injEq, true_and]
      exact ih htail

/-- Folding `Count` over timestamps that all fall in bucket `k`, starting
from a state whose tail entry is `(k, i)` and whose other keys differ from
`k`, adds one to that entry per call. -/
theorem foldl_count_from (ts : List GoTime) (itv : Int) (m : List (Int × Int))
    (k : Int) (hk : ∀ t ∈ ts, bucketKey itv t = k) (hm : k ∉ m.map Prod.fst) :
    ∀ i : Int, ts.foldl Counter.count ⟨itv, m ++ [(k, i)]⟩ =
      ⟨itv, m ++ [(k, i + ts.length)]⟩ := by
  induction ts with
  | nil => intro i; simp
  | cons t rest ih =>
    intro i
    have hstep : Counter.count ⟨itv, m ++ [(k, i)]⟩ t = ⟨itv, m ++ [(k, i + 1)]⟩ := by
      unfold Counter.count Counter.getKey
      simp only
      rw [hk t (by simp), bumpKey_append m k i hm]
    rw [List.foldl_cons, hstep,
      ih (fun t' ht' => hk t' (by simp [ht'])) (i + 1)]
    rw [List.length_cons]
    push_cast
    rw [show i + 1 + (rest.length : Int) = i + ((rest.length : Int) + 1) from by ring]

/-- Drain of a bucket list whose tail holds the only entry for key `k`:
once the clock has passed the window of `k`, filtering the drained windows
for start `k` yields exactly one window carrying that entry's total. -/
theorem takePoints_filter_singleton (itv : Int) (m : List (Int × Int)) (k n : Int)
    (d : GoTime) (hfresh : k ∉ m.map Prod.fst)
    (hdrain : k < (Counter.mk itv m).getKey d) :
    ((Counter.mk itv (m ++ [(k, n)])).takePoints d false).1.filter
        (fun w => decide (w.start.sec = k)) =
      [{ start := ⟨k, 0⟩, endTime := ⟨k + itv, 0⟩, count := n }] := by
  have hkeyd : (Counter.mk itv (m ++ [(k, n)])).getKey d =
      (Counter.mk itv m).getKey d := rfl
  have hperm : (((Counter.mk itv (m ++ [(k, n)])).takePoints d false).1.filter
        (fun w => decide (w.start.sec = k))).Perm
      ((((takenEntries false ((Counter.mk itv m).getKey d)
          (m ++ [(k, n)])).map
          (Counter.mk itv (m ++ [(k, n)])).toCountRec)).filter
        (fun w => decide (w.start.sec = k))) := by
    rw [takePoints_fst_def, hkeyd]
    exact (List.perm_insertionSort countLe _).filter _
  have htaken : (takenEntries false ((Counter.mk itv m).getKey d)
      (m ++ [(k, n)])).filter (fun kv => decide (kv.1 = k)) = [(k, n)] := by
    unfold takenEntries
    rw [List.filter_filter, List.filter_append]
    have hmnil : m.filter (fun kv => decide (kv.1 = k) &&
        (false || decide (kv.1 < (Counter.mk itv m).getKey d))) = [] := by
      apply List.filter_eq_nil_iff.mpr
      intro kv hkv
      have hne : kv.1 ≠ k := by
        intro he
        exact hfresh (he ▸ List.mem_map_of_mem Prod.fst hkv)
      simp [hne]
    have hsingle : [(k, n)].filter (fun kv => decide (kv.1 = k) &&
        (false || decide (kv.1 < (Counter.mk itv m).getKey d))) = [(k, n)] := by
      simp [hdrain]
    rw [hmnil, hsingle, List.nil_append]
  have hfiltmap : (((takenEntries false ((Counter.mk itv m).getKey d)
      (m ++ [(k, n)])).map
      (Counter.mk itv (m ++ [(k, n)])).toCountRec)).filter
      (fun w => decide (w.start.sec = k)) =
      [{ start := ⟨k, 0⟩, endTime := ⟨k + itv, 0⟩, count := n }] := by
    rw [List.filter_map, show ((fun w : CountRec => decide (w.start.sec = k)) ∘
        (Counter.mk itv (m ++ [(k, n)])).toCountRec) =
        (fun kv : Int × Int => decide (kv.1 = k)) from rfl, htaken]
    rfl
  rw [hfiltmap] at hperm
  exact List.perm_singleton.mp hperm

/-- Claim C1: when every `Count` call of a sequence lands in the same bucket
`k` (the clock stays inside one window), the bucket was not previously
present, and a drain occurs once the clock has moved past the window, then
the drain returns exactly one window for `k` and its total is exactly the
number of calls — no increment is lost and none is attributed to a second
window. The sequential fold models any interleaving of the callers: each
call is a single atomic increment of the same bucket total, so every order
yields the same state. -/
theorem counter_window_total_eq_call_count (c : Counter) (ts : List GoTime)
    (k : Int) (d : GoTime)
    (hk : ∀ t ∈ ts, c.getKey t = k)
    (hfresh : k ∉ c.counts.map Prod.fst)
    (hne : ts ≠ [])
    (hdrain : k < c.getKey d) :
    ((ts.foldl Counter.count c).takePoints d false).1.filter
        (fun w => decide (w.start.sec = k)) =
      [{ start := ⟨k, 0⟩, endTime := ⟨k + c.interval, 0⟩,
         count := (ts.length : Int) }] := by
  obtain ⟨t₀, ts', rfl⟩ : ∃ t₀ ts', ts = t₀ :: ts' := by
    cases ts with
    | nil => exact absurd rfl hne
    | cons a l => exact ⟨a, l, rfl⟩
  obtain ⟨itv, m⟩ := c
  have hk' : ∀ t ∈ t₀ :: ts', bucketKey itv t = k := hk
  have hstep : Counter.count ⟨itv, m⟩ t₀ = ⟨itv, m ++ [(k, 1)]⟩ := by
    unfold Counter.count Counter.getKey
    simp only
    rw [hk' t₀ (by simp), bumpKey_not_mem m k hfresh]
  have hfold : (t₀ :: ts').foldl Counter.count ⟨itv, m⟩ =
      ⟨itv, m ++ [(k, 1 + (ts'.length : Int))]⟩ := by
    rw [List.foldl_cons, hstep,
      foldl_count_from ts' itv m k (fun t ht => hk' t (by simp [ht])) hfresh 1]
  rw [hfold, takePoints_filter_singleton itv m k (1 + (ts'.length : Int)) d hfresh hdrain]
  rw [List.length_cons]
  push_cast
  rw [show (1 : Int) + (ts'.length : Int) = (ts'.length : Int) + 1 from by ring]

/-- Witness for C1: two `Count` calls inside the window of bucket
1670681770 (interval 10), drained after the clock has left the window,
produce the single window with total 2. -/
theorem counter_window_total_witness :
    (∀ t ∈ [(⟨1670681772, 0⟩ : GoTime), ⟨1670681778, 500⟩],
      (Counter.mk 10 []).getKey t = 1670681770) ∧
    (1670681770 : Int) ∉ ([] : List (Int × Int)).map Prod.fst ∧
    ([(⟨1670681772, 0⟩ : GoTime), ⟨1670681778, 500⟩] : List GoTime) ≠ [] ∧
    (1670681770 : Int) < (Counter.mk 10 []).getKey ⟨1670681785, 0⟩ ∧
    (([(⟨1670681772, 0⟩ : GoTime), ⟨1670681778, 500⟩].foldl Counter.count
        (Counter.mk 10 [])).takePoints ⟨1670681785, 0⟩ false).1.filter
        (fun w => decide (w.start.sec = 1670681770)) =
      [{ start := ⟨1670681770, 0⟩, endTime := ⟨1670681780, 0⟩, count := 2 }] :=
  ⟨by decide, by decide, by decide, by decide,
    counter_window_total_eq_call_count (Counter.mk 10 [])
      [⟨1670681772, 0⟩, ⟨1670681778, 500⟩] 1670681770 ⟨1670681785, 0⟩
      (by decide) (by decide) (by decide) (by decide)⟩

/-! ## Claim C6 -/

/-- Claim C6: draining twice in a row — same clock reading, same mode, no
intervening increments — returns the empty sequence on the second call (and
an empty drain is an ordinary return, not an error): every bucket the mode
selects was already removed by the first call. -/
theorem takePoints_twice_empty (c : Counter) (now : GoTime) (current : Bool) :
    (((c.takePoints now current).2).takePoints now current).1 = [] := by
  simp only [Counter.takePoints, Counter.getKey, takenEntries, keptEntries,
    List.filter_filter]
  have hpred : (fun (kv : Int × Int) =>
      (current || decide (kv.1 < bucketKey c.interval now)) &&
        !(current || decide (kv.1 < bucketKey c.interval now))) =
      fun _ => false :=
    funext fun kv => Bool.and_not_self _
  rw [hpred]
  simp

/-! ## Claim C8 -/

/-- Claim C8: a drained window with whole-second start `s`, whole-second end
`e` and total `total` converts to a point whose interval starts at `s` and
ends one millisecond before `e` (second `e − 1`, nanosecond 999000000) with
value `total`; in particular the spec's example window start=1672693348,
end=1672693408 yields the end timestamp 1672693407.999. -/
theorem point_end_one_millisecond_before (s e total : Int) :
    countToMetricPointProto ⟨⟨s, 0⟩, ⟨e, 0⟩, total⟩ =
      { startTime := ⟨s, 0⟩, endTime := ⟨e - 1, 999000000⟩, value := total } ∧
    countToMetricPointProto ⟨⟨1672693348, 0⟩, ⟨1672693408, 0⟩, 365⟩ =
      { startTime := ⟨1672693348, 0⟩, endTime := ⟨1672693407, 999000000⟩,
        value := 365 } := by
  refine ⟨?_, by decide⟩
  have hend : (GoTime.mk e 0).addNs (-1000000) = ⟨e - 1, 999000000⟩ := by
    unfold GoTime.addNs GoTime.toNanos
    have hd : (e * 1000000000 + 0 + -1000000).fdiv 1000000000 = e - 1 := by
      rw [Int.fdiv_eq_ediv _ (by decide)]; omega
    have hm : (e * 1000000000 + 0 + -1000000).fmod 1000000000 = 999000000 := by
      rw [Int.fmod_eq_emod _ (by decide)]; omega
    rw [hd, hm]
  unfold countToMetricPointProto timestamppbNew
  rw [hend]

/-! ## Claim C7 -/

theorem appendAt_length {α : Type} :
    ∀ (l : List (List α)) (i : Nat) (x : α), (appendAt l i x).length = l.length
  | [], _, _ => rfl
  | _ :: rest, 0, x => by simp [appendAt]
  | _ :: rest, i + 1, x => by simp [appendAt, appendAt_length rest i x]

theorem slot_append_single (l : List (List (Nat × MetricPoint))) (j : Nat) :
    slot (l ++ [[]]) j = slot l j := by
  induction l generalizing j with
  | nil => cases j <;> simp [slot]
  | cons s rest ih => cases j with
    | zero => simp [slot]
    | succ j' => simpa [slot] using ih j'

theorem slot_appendAt (l : List (List (Nat × MetricPoint))) (i : Nat)
    (x : Nat × MetricPoint) (hi : i < l.length) (j : Nat) :
    slot (appendAt l i x) j = if j = i then slot l j ++ [x] else slot l j := by
  induction l generalizing i j with
  | nil => exact absurd hi (by simp)
  | cons s rest ih =>
    cases i with
    | zero =>
      cases j with
      | zero => simp [appendAt, slot]
      | succ j' => simp [appendAt, slot]
    | succ i' =>
      cases j with
      | zero => simp [appendAt, slot]
      | succ j' =>
        have hi' : i' < rest.length := by simpa using hi
        have := ih i' hi' j'
        simpa [appendAt, slot, Nat.succ_inj] using this

theorem placePoints_slot (b : Nat) (pts : List MetricPoint) :
    ∀ (pc : Nat) (series : List (List (Nat × MetricPoint))),
      pc ≤ series.length → ∀ j,
      slot (placePoints b pts pc series) j =
        slot series j ++
          (if pc ≤ j then ((pts[j - pc]?).map (fun pt => (b, pt))).toList else []) := by
  induction pts with
  | nil =>
    intro pc series hpc j
    simp [placePoints]
  | cons pt rest ih =>
    intro pc series hpc j
    simp only [placePoints]
    by_cases hgrow : series.length ≤ pc
    · have hpceq : series.length = pc := le_antisymm hgrow hpc
      rw [if_pos hgrow]
      have hlt : pc < (series ++ [[]]).length := by simp; omega
      have hlen2 : pc + 1 ≤ (appendAt (series ++ [[]]) pc (b, pt)).length := by
        rw [appendAt_length]; simp; omega
      rw [ih (pc + 1) _ hlen2 j]
      rw [slot_appendAt _ pc (b, pt) hlt j, slot_append_single]
      by_cases hj : j = pc
      · subst hj
        simp [Nat.sub_self]
      · rw [if_neg hj]
        by_cases hle : pc ≤ j
        · have hlt' : pc < j := lt_of_le_of_ne hle (fun he => hj he.symm)
          rw [if_pos (by omega : pc + 1 ≤ j), if_pos hle]
          rw [show j - pc = (j - (pc + 1)) + 1 from by omega]
          simp
        · rw [if_neg (by omega : ¬ pc + 1 ≤ j), if_neg hle]
    · rw [if_neg hgrow]
      have hlt : pc < series.length := lt_of_not_le hgrow
      have hlen2 : pc + 1 ≤ (appendAt series pc (b, pt)).length := by
        rw [appendAt_length]; omega
      rw [ih (pc + 1) _ hlen2 j]
      rw [slot_appendAt _ pc (b, pt) hlt j]
      by_cases hj : j = pc
      · subst hj
        simp [Nat.sub_self]
      · rw [if_neg hj]
        by_cases hle : pc ≤ j
        · have hlt' : pc < j := lt_of_le_of_ne hle (fun he => hj he.symm)
          rw [if_pos (by omega : pc + 1 ≤ j), if_pos hle]
          rw [show j - pc = (j - (pc + 1)) + 1 from by omega]
          simp
        · rw [if_neg (by omega : ¬ pc + 1 ≤ j), if_neg hle]

theorem reportBatchesAux_slot (bindings : List (List MetricPoint)) :
    ∀ (b : Nat) (series : List (List (Nat × MetricPoint))) (j : Nat),
      slot (reportBatchesAux b bindings series) j =
        slot series j ++ batchSpec b bindings j := by
  induction bindings with
  | nil => intro b series j; simp [reportBatchesAux, batchSpec]
  | cons pts rest ih =>
    intro b series j
    simp only [reportBatchesAux]
    rw [ih (b + 1) _ j, placePoints_slot b pts 0 series (Nat.zero_le _) j]
    simp [batchSpec]

theorem batchSpec_fst_ge (bindings : List (List MetricPoint)) :
    ∀ (b j : Nat), ∀ x ∈ batchSpec b bindings j, b ≤ x.1 := by
  induction bindings with
  | nil => intro b j x hx; simp [batchSpec] at hx
  | cons pts rest ih =>
    intro b j x hx
    rcases List.mem_append.mp hx with hl | hr
    · cases hopt : pts[j]? with
      | none => rw [hopt] at hl; simp at hl
      | some pt =>
        rw [hopt] at hl
        simp at hl
        rw [hl]
    · exact le_trans (Nat.le_succ b) (ih (b + 1) j x hr)

theorem batchSpec_pairwise (bindings : List (List MetricPoint)) :
    ∀ (b j : Nat),
      (batchSpec b bindings j).Pairwise (fun x y => x.1 < y.1) := by
  induction bindings with
  | nil => intro b j; simp [batchSpec]
  | cons pts rest ih =>
    intro b j
    apply List.pairwise_append.mpr
    refine ⟨?_, ih (b + 1) j, ?_⟩
    · cases hopt : pts[j]? <;> simp
    · intro x hx y hy
      cases hopt : pts[j]? with
      | none => rw [hopt] at hx; simp at hx
      | some pt =>
        rw [hopt] at hx
        simp at hx
        have := batchSpec_fst_ge rest (b + 1) j y hy
        rw [hx]
        omega

theorem batchSpec_mem (bindings : List (List MetricPoint)) :
    ∀ (b i j : Nat) (pts : List MetricPoint) (pt : MetricPoint),
      bindings[i]? = some pts → pts[j]? = some pt →
      (b + i, pt) ∈ batchSpec b bindings j := by
  induction bindings with
  | nil => intro b i j pts pt h1 _; simp at h1
  | cons pts₀ rest ih =>
    intro b i j pts pt h1 h2
    cases i with
    | zero =>
      simp only [List.getElem?_cons_zero, Option.some.injEq] at h1
      subst h1
      apply List.mem_append.mpr
      left
      rw [h2]
      simp
    | succ i' =>
      simp only [List.getElem?_cons_succ] at h1
      have := ih (b + 1) i' j pts pt h1 h2
      apply List.mem_append.mpr
      right
      rw [show b + (i' + 1) = b + 1 + i' from by omega]
      exact this

/-- Claim C7: in every `report` call, batches never hold two points of the
same metric binding — the tagged binding indices within any batch are
strictly increasing, so all distinct, while points of distinct bindings do
share a batch — and the `k`-th drained point of a binding is placed into the
`k`-th batch. -/
theorem report_batches_one_point_per_binding (q : Quantifier) (now : GoTime)
    (current : Bool) :
    (∀ j, (slot (q.report now current).1 j).Pairwise (fun x y => x.1 < y.1)) ∧
    (∀ (i : Nat) (pts : List MetricPoint) (j : Nat) (pt : MetricPoint),
      (q.drainAll now current)[i]? = some pts → pts[j]? = some pt →
      (i, pt) ∈ slot (q.report now current).1 j) := by
  constructor
  · intro j
    show (slot (reportBatches (q.drainAll now current)) j).Pairwise _
    rw [reportBatches, reportBatchesAux_slot]
    simpa [slot] using batchSpec_pairwise (q.drainAll now current) 0 j
  · intro i pts j pt h1 h2
    show (i, pt) ∈ slot (reportBatches (q.drainAll now current)) j
    rw [reportBatches, reportBatchesAux_slot]
    have := batchSpec_mem (q.drainAll now current) 0 i j pts pt h1 h2
    simpa [slot] using this

/-- Witness for C7: two bindings whose counters each hold one completed
bucket; the second binding's first (and only) point lands in batch 0,
alongside the first binding's point. -/
theorem report_batches_witness :
    ((Quantifier.mk
        [⟨"custom.googleapis.com/a", [], ⟨10, [(1670681770, 3)]⟩⟩,
         ⟨"custom.googleapis.com/b", [], ⟨10, [(1670681770, 5)]⟩⟩]).drainAll
        ⟨1670681795, 0⟩ false)[1]? =
      some [⟨⟨1670681770, 0⟩, ⟨1670681779, 999000000⟩, 5⟩] ∧
    ([(⟨⟨1670681770, 0⟩, ⟨1670681779, 999000000⟩, 5⟩ : MetricPoint)])[0]? =
      some ⟨⟨1670681770, 0⟩, ⟨1670681779, 999000000⟩, 5⟩ ∧
    ((1 : Nat), (⟨⟨1670681770, 0⟩, ⟨1670681779, 999000000⟩, 5⟩ : MetricPoint)) ∈
      slot ((Quantifier.mk
        [⟨"custom.googleapis.com/a", [], ⟨10, [(1670681770, 3)]⟩⟩,
         ⟨"custom.googleapis.com/b", [], ⟨10, [(1670681770, 5)]⟩⟩]).report
        ⟨1670681795, 0⟩ false).1 0 :=
  ⟨by decide, by decide,
    (report_batches_one_point_per_binding
        (Quantifier.mk
          [⟨"custom.googleapis.com/a", [], ⟨10, [(1670681770, 3)]⟩⟩,
           ⟨"custom.googleapis.com/b", [], ⟨10, [(1670681770, 5)]⟩⟩])
        ⟨1670681795, 0⟩ false).2 1
      [⟨⟨1670681770, 0⟩, ⟨1670681779, 999000000⟩, 5⟩] 0
      ⟨⟨1670681770, 0⟩, ⟨1670681779, 999000000⟩, 5⟩ (by decide) (by decide)⟩

/-! ## Claim C9 -/

/-- Claim C9: a registration whose metric name fails validation, or whose
label set holds a key failing validation, returns the error corresponding to
the failure — an invalid name yields the invalid-name error; a valid name
with an invalid label key yields the invalid-label-key error, carrying an
actually invalid key — and in either case the registered-metrics collection
is left exactly as it was: no counter is created or registered. -/
theorem createCounter_rejects_invalid (q : Quantifier) (name : String)
    (labels : List (String × String)) (interval : Int)
    (h : isMetricTypeValid name = false ∨
      ∃ kv ∈ labels, isMetricLabelKeyValid kv.1 = false) :
    (q.createCounter name labels interval).1 = q ∧
    (isMetricTypeValid name = false →
      (q.createCounter name labels interval).2 = .error .invalidName) ∧
    (isMetricTypeValid name = true ∧
        (∃ kv ∈ labels, isMetricLabelKeyValid kv.1 = false) →
      ∃ key, (q.createCounter name labels interval).2 =
          .error (.invalidLabelKey key) ∧
        isMetricLabelKeyValid key = false) := by
  unfold Quantifier.createCounter
  cases hname : isMetricTypeValid name with
  | false =>
    exact ⟨rfl, fun _ => rfl, fun hc => absurd hc.1 (by decide)⟩
  | true =>
    have hexists : ∃ kv, kv ∈ labels ∧ (!isMetricLabelKeyValid kv.1) = true := by
      rcases h with hfalse | ⟨kv, hmem, hkv⟩
      · rw [hname] at hfalse
        exact absurd hfalse (by simp)
      · exact ⟨kv, hmem, by simp [hkv]⟩
    have hsome : (labels.find? (fun kv => !isMetricLabelKeyValid kv.1)).isSome := by
      rw [List.find?_isSome]
      exact hexists
    obtain ⟨kv', hkv'⟩ := Option.isSome_iff_exists.mp hsome
    have hpred := List.find?_some hkv'
    rw [hkv']
    exact ⟨rfl, fun hc => absurd hc (by decide),
      fun _ => ⟨kv'.1, rfl, by simpa using hpred⟩⟩

/-- Witness for C9: the repository test's invalid label key `@!blah`, under
the valid name `test_metric`, is rejected specifically with the
invalid-label-key error (for that very key) and the (empty) registered
collection is unchanged. -/
theorem createCounter_rejects_witness :
    (isMetricTypeValid "test_metric" = true ∧
      ∃ kv ∈ [("@!blah", "red")], isMetricLabelKeyValid kv.1 = false) ∧
    ((Quantifier.mk []).createCounter "test_metric" [("@!blah", "red")] 60).1 =
      Quantifier.mk [] ∧
    (∃ key, ((Quantifier.mk []).createCounter "test_metric"
        [("@!blah", "red")] 60).2 = .error (.invalidLabelKey key) ∧
      isMetricLabelKeyValid key = false) ∧
    ((Quantifier.mk []).createCounter "test_metric" [("@!blah", "red")] 60).2 =
      .error (.invalidLabelKey "@!blah") :=
  ⟨⟨by decide, ⟨("@!blah", "red"), by decide, by decide⟩⟩,
    (createCounter_rejects_invalid (Quantifier.mk []) "test_metric"
        [("@!blah", "red")] 60
        (Or.inr ⟨("@!blah", "red"), by decide, by decide⟩)).1,
    (createCounter_rejects_invalid (Quantifier.mk []) "test_metric"
        [("@!blah", "red")] 60
        (Or.inr ⟨("@!blah", "red"), by decide, by decide⟩)).2.2
      ⟨by decide, ⟨("@!blah", "red"), by decide, by decide⟩⟩,
    rfl⟩

end Quantify
